import Mathlib

/-!
Shallow embedding of the Hack assembler (src/src/main.rs).

Strings are modelled by Lean strings and character lists; the Rust
HashMap fields of the symbol table are modelled as functions from
String to Option Nat (insertion overrides, lookup is application),
which matches HashMap insert/get semantics exactly.  The u16 counters
(variable_address, program_length) are modelled as Nat with arithmetic
taken modulo 65536 where the Rust code increments a u16.  The output
writer is modelled by returning the written line (a newline-terminated
string) instead of performing IO.
-/

namespace Hack

/-- Whitespace test used by trimming, modelling ASCII whitespace as
trimmed by the source's trim calls on the inputs that matter here. -/
def isWSChar (c : Char) : Bool :=
  c = ' ' || c = '\t' || c = '\n' || c = '\r'

/-- Model of str::trim: drop whitespace from both ends of a char list. -/
def trimChars (cs : List Char) : List Char :=
  ((cs.dropWhile isWSChar).reverse.dropWhile isWSChar).reverse

/-- The text before the first occurrence of two consecutive slashes,
modelling the split on the comment marker in HackLine::from_str. -/
def beforeComment : List Char → List Char
  | [] => []
  | '/' :: '/' :: _ => []
  | c :: rest => c :: beforeComment rest

/-- Whether a char list begins with two slashes, modelling the
starts_with check of the comment filter in assemble. -/
def startsWithSlashSlash : List Char → Bool
  | '/' :: '/' :: _ => true
  | _ => false

/-- Model of Rust char-separator split: splitOnChar sep cs returns the
pieces of cs between occurrences of sep; the empty list yields one
empty piece, like the Rust split iterator. -/
def splitOnChar (sep : Char) : List Char → List (List Char)
  | [] => [[]]
  | c :: rest =>
    if c = sep then [] :: splitOnChar sep rest
    else
      match splitOnChar sep rest with
      | [] => [[c]]
      | p :: ps => (c :: p) :: ps

/-- Model of str::trim_end_matches for a single char: drop every
trailing occurrence of that char. -/
def trimEndMatches (c : Char) (cs : List Char) : List Char :=
  (cs.reverse.dropWhile (fun x => x = c)).reverse

/-- Model of str::parse::<u16>: an optional leading plus sign, then one
or more ASCII digits, whose value must fit in 16 bits; anything else
fails (returns none). -/
def parseU16 (cs : List Char) : Option Nat :=
  let ds := match cs with
    | '+' :: rest => rest
    | _ => cs
  if ds = [] then none
  else if ds.all Char.isDigit then
    let n := ds.foldl (fun acc c => acc * 10 + (c.toNat - 48)) 0
    if n ≤ 65535 then some n else none
  else none

/-- Model of the zero-padded binary write formats of the source
(widths 16, 3 and 1) on their actual domains: the formatted values are
a u16, a 3-bit discriminant and a 1-bit discriminant, all of which
have at most the requested width in bits, so the format always prints
exactly that many binary digits of the value. -/
def formatBinary : Nat → Nat → List Char
  | 0, _ => []
  | w + 1, n => formatBinary w (n / 2) ++ [if n % 2 = 1 then '1' else '0']

/-- HashMap insertion on the function model: later inserts override. -/
def insertMap (m : String → Option Nat) (k : String) (v : Nat) :
    String → Option Nat :=
  fun k2 => if k2 = k then some v else m k2

/-- A binary digit character. -/
def isBit (c : Char) : Bool := c = '0' || c = '1'

/-- The Destination enum of the source, in declaration order. -/
inductive Destination where
  | Null | M | D | MD | A | AM | AD | AMD
deriving DecidableEq, Fintype

/-- Discriminant of Destination, as in the cast to u8. -/
def Destination.code : Destination → Nat
  | .Null => 0 | .M => 1 | .D => 2 | .MD => 3
  | .A => 4 | .AM => 5 | .AD => 6 | .AMD => 7

/-- Destination::from_str derived by parse_display: matches the exact
variant name. -/
def Destination.fromStr (s : String) : Except String Destination :=
  match s with
  | "Null" => Except.ok Destination.Null
  | "M" => Except.ok Destination.M
  | "D" => Except.ok Destination.D
  | "MD" => Except.ok Destination.MD
  | "A" => Except.ok Destination.A
  | "AM" => Except.ok Destination.AM
  | "AD" => Except.ok Destination.AD
  | "AMD" => Except.ok Destination.AMD
  | other => Except.error ("Invalid dest: " ++ other)

/-- Destination::assemble writes the discriminant as 3 binary digits. -/
def Destination.assembleStr (d : Destination) : String :=
  String.mk (formatBinary 3 d.code)

/-- The Jump enum of the source, in declaration order. -/
inductive Jump where
  | Null | JGT | JEQ | JGE | JLT | JNE | JLE | JMP
deriving DecidableEq, Fintype

/-- Discriminant of Jump, as in the cast to u8. -/
def Jump.code : Jump → Nat
  | .Null => 0 | .JGT => 1 | .JEQ => 2 | .JGE => 3
  | .JLT => 4 | .JNE => 5 | .JLE => 6 | .JMP => 7

/-- Jump::from_str derived by parse_display: matches the exact variant
name. -/
def Jump.fromStr (s : String) : Except String Jump :=
  match s with
  | "Null" => Except.ok Jump.Null
  | "JGT" => Except.ok Jump.JGT
  | "JEQ" => Except.ok Jump.JEQ
  | "JGE" => Except.ok Jump.JGE
  | "JLT" => Except.ok Jump.JLT
  | "JNE" => Except.ok Jump.JNE
  | "JLE" => Except.ok Jump.JLE
  | "JMP" => Except.ok Jump.JMP
  | other => Except.error ("Invalid jump: " ++ other)

/-- Jump::assemble writes the discriminant as 3 binary digits. -/
def Jump.assembleStr (j : Jump) : String :=
  String.mk (formatBinary 3 j.code)

/-- The AM enum of the source: the operand selector (A register or
memory). -/
inductive AM where
  | A | M
deriving DecidableEq, Fintype

/-- Discriminant of AM, as in the cast to u8. -/
def AM.code : AM → Nat
  | .A => 0 | .M => 1

/-- AM::assemble writes the discriminant as one binary digit. -/
def AM.assembleStr (x : AM) : String :=
  String.mk (formatBinary 1 x.code)

/-- The Computation enum of the source. -/
inductive Computation where
  | Zero | One | Neg1 | D
  | X (x : AM)
  | NegD
  | NegX (x : AM)
  | DPlusOne
  | XPlusOne (x : AM)
  | DMinusOne
  | XMinusOne (x : AM)
  | DPlusX (x : AM)
  | DMinusX (x : AM)
  | XMinusD (x : AM)
  | NotD
  | NotX (x : AM)
  | DAndX (x : AM)
  | DOrX (x : AM)
deriving DecidableEq, Fintype

/-- Computation::from_str of the source. -/
def Computation.fromStr (s : String) : Except String Computation :=
  match s with
  | "0" => Except.ok Computation.Zero
  | "1" => Except.ok Computation.One
  | "-1" => Except.ok Computation.Neg1
  | "D" => Except.ok Computation.D
  | "A" => Except.ok (Computation.X AM.A)
  | "M" => Except.ok (Computation.X AM.M)
  | "!D" => Except.ok Computation.NotD
  | "!A" => Except.ok (Computation.NotX AM.A)
  | "!M" => Except.ok (Computation.NotX AM.M)
  | "-D" => Except.ok Computation.NegD
  | "-A" => Except.ok (Computation.NegX AM.A)
  | "-M" => Except.ok (Computation.NegX AM.M)
  | "D+1" => Except.ok Computation.DPlusOne
  | "A+1" => Except.ok (Computation.XPlusOne AM.A)
  | "M+1" => Except.ok (Computation.XPlusOne AM.M)
  | "D-1" => Except.ok Computation.DMinusOne
  | "A-1" => Except.ok (Computation.XMinusOne AM.A)
  | "M-1" => Except.ok (Computation.XMinusOne AM.M)
  | "D+A" => Except.ok (Computation.DPlusX AM.A)
  | "D+M" => Except.ok (Computation.DPlusX AM.M)
  | "D-A" => Except.ok (Computation.DMinusX AM.A)
  | "D-M" => Except.ok (Computation.DMinusX AM.M)
  | "A-D" => Except.ok (Computation.XMinusD AM.A)
  | "M-D" => Except.ok (Computation.XMinusD AM.M)
  | "D&A" => Except.ok (Computation.DAndX AM.A)
  | "D&M" => Except.ok (Computation.DAndX AM.M)
  | "D|A" => Except.ok (Computation.DOrX AM.A)
  | "D|M" => Except.ok (Computation.DOrX AM.M)
  | other => Except.error ("Invalid comp: " ++ other)

/-- The selector bit written first by Computation::assemble: the AM
discriminant for the ten operand-carrying variants, the digit 0
otherwise. -/
def Computation.selBits : Computation → List Char
  | .X x | .NegX x | .XPlusOne x | .XMinusOne x | .XMinusD x
  | .DPlusX x | .DMinusX x | .NotX x | .DAndX x | .DOrX x =>
      formatBinary 1 x.code
  | _ => ['0']

/-- The six function bits written second by Computation::assemble. -/
def Computation.funcBits : Computation → String
  | .Zero => "101010"
  | .One => "111111"
  | .Neg1 => "111010"
  | .D => "001100"
  | .X _ => "110000"
  | .NegD => "001111"
  | .NegX _ => "110011"
  | .DPlusOne => "011111"
  | .XPlusOne _ => "110111"
  | .DMinusOne => "001110"
  | .XMinusOne _ => "110010"
  | .DPlusX _ => "000010"
  | .DMinusX _ => "010011"
  | .XMinusD _ => "000111"
  | .NotD => "001101"
  | .NotX _ => "110001"
  | .DAndX _ => "000000"
  | .DOrX _ => "010101"

/-- Computation::assemble: the selector bit followed by the six
function bits. -/
def Computation.assembleStr (c : Computation) : String :=
  String.mk c.selBits ++ c.funcBits

/-- The HackLine enum of the source. -/
inductive HackLine where
  | Label (name : String)
  | AImmediate (value : Nat)
  | ALocation (name : String)
  | C (comp : Computation) (dest : Destination) (jump : Jump)
deriving DecidableEq

/-- The computation and jump part of HackLine::from_str: split the
text after the equals sign on the semicolon (at most one allowed),
parse the jump mnemonic when present, then the computation mnemonic. -/
def parseCompJump (d : Destination) (comp0 : List Char) :
    Except String HackLine :=
  match splitOnChar ';' comp0 with
  | [comp] =>
      match Computation.fromStr (String.mk comp) with
      | Except.error e => Except.error e
      | Except.ok c => Except.ok (HackLine.C c d Jump.Null)
  | [comp, jump] =>
      match Jump.fromStr (String.mk jump) with
      | Except.error e => Except.error e
      | Except.ok j =>
          match Computation.fromStr (String.mk comp) with
          | Except.error e => Except.error e
          | Except.ok c => Except.ok (HackLine.C c d j)
  | _ => Except.error "more than one ; in instruction"

/-- HackLine::from_str: strip the comment suffix and surrounding
whitespace, then classify by the first character: a parenthesis gives
a Label (all leading parentheses and trailing close-parentheses
stripped), an at sign gives an A-instruction (immediate when the
operand parses as u16, symbolic otherwise), anything else is parsed as
a C-instruction by splitting on the equals sign (at most one allowed)
and then on the semicolon. -/
def HackLine.fromStr (s : String) : Except String HackLine :=
  let t : List Char := trimChars (beforeComment s.data)
  if t.head? = some '(' then
    Except.ok (HackLine.Label
      (String.mk (trimEndMatches ')' (t.dropWhile (fun c => c = '(')))))
  else if t.head? = some '@' then
    let value := t.dropWhile (fun c => c = '@')
    match parseU16 value with
    | some imm => Except.ok (HackLine.AImmediate imm)
    | none => Except.ok (HackLine.ALocation (String.mk value))
  else
    match splitOnChar '=' t with
    | [comp0] => parseCompJump Destination.Null comp0
    | [dest, comp0] =>
        match Destination.fromStr (String.mk dest) with
        | Except.error e => Except.error e
        | Except.ok d => parseCompJump d comp0
    | _ => Except.error "more than one equal sign in instruction"

/-- The PREDEFINED_SYMBOLS table of the source. -/
def PREDEFINED_SYMBOLS : List (String × Nat) :=
  [("SP", 0), ("LCL", 1), ("ARG", 2), ("THIS", 3), ("THAT", 4),
   ("R0", 0), ("R1", 1), ("R2", 2), ("R3", 3), ("R4", 4), ("R5", 5),
   ("R6", 6), ("R7", 7), ("R8", 8), ("R9", 9), ("R10", 10),
   ("R11", 11), ("R12", 12), ("R13", 13), ("R14", 14), ("R15", 15),
   ("SCREEN", 16384), ("KBD", 24576)]

/-- The label map seeded from PREDEFINED_SYMBOLS, modelling
HashMap::from on that array. -/
def predefinedLabels : String → Option Nat :=
  PREDEFINED_SYMBOLS.foldl (fun m kv => insertMap m kv.1 kv.2)
    (fun _ => none)

/-- The SymbolTable struct of the source, with both hash maps
modelled as functions. -/
structure SymbolTable where
  labels : String → Option Nat
  vars : String → Option Nat
  variable_address : Nat

/-- The pass-1 loop body of SymbolTable::new: walk the parsed lines
keeping a running program length (a u16); a Label line inserts its
name at the current length without incrementing it, every other line
increments the length. Returns the final label map and final length. -/
def pass1 : List HackLine → (String → Option Nat) → Nat →
    ((String → Option Nat) × Nat)
  | [], labels, program_length => (labels, program_length)
  | HackLine.Label label :: rest, labels, program_length =>
      pass1 rest (insertMap labels label program_length) program_length
  | _ :: rest, labels, program_length =>
      pass1 rest labels ((program_length + 1) % 65536)

/-- SymbolTable::new: seed the label map with the predefined symbols,
run pass 1 over the parsed lines, start with no variables and the
variable allocator at 16. -/
def SymbolTable.new (lines : List HackLine) : SymbolTable :=
  { labels := (pass1 lines predefinedLabels 0).1
    vars := fun _ => none
    variable_address := 16 }

/-- SymbolTable::label: pure lookup in the label map. -/
def SymbolTable.label (st : SymbolTable) (key : String) : Option Nat :=
  st.labels key

/-- SymbolTable::variable: look the key up in the variable map,
inserting the current allocator value when absent (entry/or_insert),
then increment the allocator unconditionally (a u16 increment), and
return the stored address together with the updated table. -/
def SymbolTable.variableEntry (st : SymbolTable) (key : String) :
    Nat × SymbolTable :=
  match st.vars key with
  | some a =>
      (a, { st with variable_address := (st.variable_address + 1) % 65536 })
  | none =>
      (st.variable_address,
       { st with
           vars := insertMap st.vars key st.variable_address
           variable_address := (st.variable_address + 1) % 65536 })

/-- HackLine::assemble: a Label writes nothing; an immediate writes
its 16 binary digits and a newline; a symbolic reference resolves via
the label map first, else via the variable allocator, and writes the
16 binary digits of the address and a newline; a C-instruction writes
the prefix 111, the computation, destination and jump codes, and a
newline. Returns the written line (if any) and the updated table. -/
def HackLine.assemble : HackLine → SymbolTable →
    Option String × SymbolTable
  | HackLine.Label _, st => (none, st)
  | HackLine.AImmediate imm, st =>
      (some (String.mk (formatBinary 16 imm) ++ "\n"), st)
  | HackLine.ALocation name, st =>
      match st.label name with
      | some address =>
          (some (String.mk (formatBinary 16 address) ++ "\n"), st)
      | none =>
          match st.variableEntry name with
          | (address, st2) =>
              (some (String.mk (formatBinary 16 address) ++ "\n"), st2)
  | HackLine.C c d j, st =>
      (some ("111" ++ c.assembleStr ++ d.assembleStr ++ j.assembleStr
             ++ "\n"), st)

/-- The second pass of assemble: walk the parsed lines threading the
symbol table, collecting the written lines in order. -/
def pass2 : List HackLine → SymbolTable → List String
  | [], _ => []
  | l :: rest, st =>
      match l.assemble st with
      | (some s, st2) => s :: pass2 rest st2
      | (none, st2) => pass2 rest st2

/-- The line filter of assemble: keep a raw line unless its trimmed
text starts with two slashes or the line is empty. -/
def keepLine (line : String) : Bool :=
  !startsWithSlashSlash (trimChars line.data) && !line.data.isEmpty

/-- The parse-and-collect step of assemble: parse each kept line,
stopping at the first parse error (Result collection semantics). -/
def parseAll : List String → Except String (List HackLine)
  | [] => Except.ok []
  | l :: rest =>
      match HackLine.fromStr l with
      | Except.error e => Except.error e
      | Except.ok line =>
          match parseAll rest with
          | Except.error e => Except.error e
          | Except.ok lines => Except.ok (line :: lines)

/-- The assemble driver of the source: filter out comment-only and
empty raw lines, parse the rest (aborting on the first parse error),
build the symbol table in pass 1, and emit the binary lines in
pass 2. The output file content is the returned list of lines. -/
def assemble (input : List String) : Except String (List String) :=
  match parseAll (input.filter keepLine) with
  | Except.error e => Except.error e
  | Except.ok lines => Except.ok (pass2 lines (SymbolTable.new lines))

/-- Count of non-label instructions in a parsed line list (the number
of pass-1 counter increments it causes). -/
def countNonLabels : List HackLine → Nat
  | [] => 0
  | HackLine.Label _ :: rest => countNonLabels rest
  | _ :: rest => countNonLabels rest + 1

/-- The symbolic-resolution step of HackLine::assemble for an
ALocation, isolated: label lookup first, else the variable allocator. -/
def resolveA (st : SymbolTable) (name : String) : Nat × SymbolTable :=
  match st.label name with
  | some address => (address, st)
  | none => st.variableEntry name

/-- The addresses emitted for the occurrences of one symbolic name
along a pass-2 run, in order. -/
def addrTrace : List HackLine → SymbolTable → String → List Nat
  | [], _, _ => []
  | HackLine.ALocation m :: rest, st, name =>
      match resolveA st m with
      | (a, st2) =>
          if m = name then a :: addrTrace rest st2 name
          else addrTrace rest st2 name
  | l :: rest, st, name => addrTrace rest (l.assemble st).2 name

/-- Iterated variable resolution: fold SymbolTable::variable over a
list of names. -/
def varRun : List String → SymbolTable → SymbolTable
  | [], st => st
  | n :: rest, st => varRun rest (st.variableEntry n).2

/-- Whether a computation reads memory (selects the M operand): true
exactly for the operand-carrying variants applied to AM.M. -/
def usesM : Computation → Bool
  | .X x | .NegX x | .XPlusOne x | .XMinusOne x | .XMinusD x
  | .DPlusX x | .DMinusX x | .NotX x | .DAndX x | .DOrX x =>
      decide (x = AM.M)
  | _ => false

/-- A name is bound to an address in a table: either as a label, or,
when no label of that name exists, as an already-allocated variable. -/
def boundTo (st : SymbolTable) (name : String) (a : Nat) : Prop :=
  st.labels name = some a ∨ (st.labels name = none ∧ st.vars name = some a)

theorem parseU16_le (cs : List Char) (v : Nat) (h : parseU16 cs = some v) :
    v ≤ 65535 := by
  simp only [parseU16] at h
  repeat' split at h
  all_goals simp_all

theorem parseCompJump_ne_AImmediate (d : Destination) (comp0 : List Char)
    (v : Nat) : parseCompJump d comp0 ≠ Except.ok (HackLine.AImmediate v) := by
  intro h
  unfold parseCompJump at h
  split at h <;> (try simp at h) <;>
    (repeat' split at h) <;> simp at h

theorem fromStr_AImmediate_le (line : String) (v : Nat)
    (h : HackLine.fromStr line = Except.ok (HackLine.AImmediate v)) :
    v ≤ 65535 := by
  simp only [HackLine.fromStr] at h
  split at h
  · simp at h
  · split at h
    · split at h
      · rename_i imm heq
        simp only [Except.ok.injEq, HackLine.AImmediate.injEq] at h
        subst h
        exact parseU16_le _ _ heq
      · simp at h
    · split at h
      · exact absurd h (parseCompJump_ne_AImmediate _ _ _)
      · split at h
        · simp at h
        · exact absurd h (parseCompJump_ne_AImmediate _ _ _)
      · simp at h

theorem assemble_ALocation (st : SymbolTable) (name : String) :
    (HackLine.ALocation name).assemble st =
      (some (String.mk (formatBinary 16 (resolveA st name).1) ++ "\n"),
       (resolveA st name).2) := by
  simp only [HackLine.assemble, resolveA]
  cases h : st.label name with
  | some a => rfl
  | none =>
    cases hv : st.variableEntry name with
    | mk a st2 => rfl

theorem labels_after_variableEntry (st : SymbolTable) (m : String) :
    ((st.variableEntry m).2).labels = st.labels := by
  unfold SymbolTable.variableEntry
  cases st.vars m <;> rfl

theorem labels_after_resolveA (st : SymbolTable) (m : String) :
    ((resolveA st m).2).labels = st.labels := by
  unfold resolveA
  cases h : st.label m with
  | some a => rfl
  | none => exact labels_after_variableEntry st m

theorem vars_after_resolveA {st : SymbolTable} {name : String} {a : Nat}
    (m : String) (h : st.vars name = some a) :
    ((resolveA st m).2).vars name = some a := by
  unfold resolveA
  cases hl : st.label m with
  | some _ => exact h
  | none =>
    unfold SymbolTable.variableEntry
    cases hv : st.vars m with
    | some _ => exact h
    | none =>
      have hne : name ≠ m := by
        intro hh
        rw [hh] at h
        rw [h] at hv
        cases hv
      simp [insertMap, hne, h]

theorem resolveA_fst_of_bound {st : SymbolTable} {name : String} {a : Nat}
    (h : boundTo st name a) : (resolveA st name).1 = a := by
  rcases h with h | ⟨h1, h2⟩
  · simp [resolveA, SymbolTable.label, h]
  · simp [resolveA, SymbolTable.label, h1, SymbolTable.variableEntry, h2]

theorem boundTo_resolveA_self (st : SymbolTable) (name : String) :
    boundTo (resolveA st name).2 name (resolveA st name).1 := by
  unfold resolveA SymbolTable.label
  cases h : st.labels name with
  | some a => exact Or.inl h
  | none =>
    unfold SymbolTable.variableEntry
    cases h2 : st.vars name with
    | some a => exact Or.inr ⟨h, h2⟩
    | none => exact Or.inr ⟨h, by simp [insertMap]⟩

theorem boundTo_preserved (m : String) {st : SymbolTable} {name : String}
    {a : Nat} (h : boundTo st name a) : boundTo (resolveA st m).2 name a := by
  rcases h with h | ⟨h1, h2⟩
  · exact Or.inl (by rw [labels_after_resolveA]; exact h)
  · exact Or.inr ⟨by rw [labels_after_resolveA]; exact h1,
      vars_after_resolveA m h2⟩

theorem addrTrace_all_eq (rest : List HackLine) (name : String) (a : Nat) :
    ∀ st : SymbolTable, boundTo st name a →
      ∀ x ∈ addrTrace rest st name, x = a := by
  induction rest with
  | nil => intro st _ x hx; cases hx
  | cons l rest ih =>
    intro st h
    cases l with
    | ALocation m =>
      rcases hr : resolveA st m with ⟨b, st2⟩
      have hpres : boundTo st2 name a := by
        have := boundTo_preserved m h
        rw [hr] at this
        exact this
      simp only [addrTrace, hr]
      by_cases hm : m = name
      · rw [if_pos hm]
        subst hm
        have hb : b = a := by
          have := resolveA_fst_of_bound h
          rw [hr] at this
          exact this
        intro x hx
        rcases List.mem_cons.mp hx with rfl | hx2
        · exact hb
        · exact ih st2 hpres x hx2
      · rw [if_neg hm]
        exact ih st2 hpres
    | Label n =>
      simp only [addrTrace, HackLine.assemble]
      exact ih st h
    | AImmediate v =>
      simp only [addrTrace, HackLine.assemble]
      exact ih st h
    | C c d j =>
      simp only [addrTrace, HackLine.assemble]
      exact ih st h

theorem addrTrace_mem_eq (p : List HackLine) (name : String) :
    ∀ (st : SymbolTable) (a b : Nat),
      a ∈ addrTrace p st name → b ∈ addrTrace p st name → a = b := by
  induction p with
  | nil => intro st a b ha _; cases ha
  | cons l rest ih =>
    intro st a b ha hb
    cases l with
    | ALocation m =>
      rcases hr : resolveA st m with ⟨c, st2⟩
      simp only [addrTrace, hr] at ha hb
      by_cases hm : m = name
      · rw [if_pos hm] at ha hb
        subst hm
        have hbound : boundTo st2 m c := by
          have := boundTo_resolveA_self st m
          rw [hr] at this
          exact this
        rcases List.mem_cons.mp ha with rfl | ha2
        · rcases List.mem_cons.mp hb with rfl | hb2
          · rfl
          · exact (addrTrace_all_eq rest m a st2 hbound b hb2).symm
        · rcases List.mem_cons.mp hb with rfl | hb2
          · exact addrTrace_all_eq rest m b st2 hbound a ha2
          · rw [addrTrace_all_eq rest m c st2 hbound a ha2,
                addrTrace_all_eq rest m c st2 hbound b hb2]
      · rw [if_neg hm] at ha hb
        exact ih st2 a b ha hb
    | Label n =>
      simp only [addrTrace, HackLine.assemble] at ha hb
      exact ih st a b ha hb
    | AImmediate v =>
      simp only [addrTrace, HackLine.assemble] at ha hb
      exact ih st a b ha hb
    | C c d j =>
      simp only [addrTrace, HackLine.assemble] at ha hb
      exact ih st a b ha hb

theorem pass1_snd (lines : List HackLine) :
    ∀ (m : String → Option Nat) (pl : Nat), pl < 65536 →
      (pass1 lines m pl).2 = (pl + countNonLabels lines) % 65536 := by
  induction lines with
  | nil =>
    intro m pl hpl
    simp [pass1, countNonLabels, Nat.mod_eq_of_lt hpl]
  | cons l rest ih =>
    intro m pl hpl
    cases l with
    | Label name =>
      simp only [pass1, countNonLabels]
      exact ih _ pl hpl
    | AImmediate v =>
      simp only [pass1, countNonLabels]
      rw [ih _ _ (Nat.mod_lt _ (by omega)), Nat.mod_add_mod]
      congr 1
      omega
    | ALocation n =>
      simp only [pass1, countNonLabels]
      rw [ih _ _ (Nat.mod_lt _ (by omega)), Nat.mod_add_mod]
      congr 1
      omega
    | C c d j =>
      simp only [pass1, countNonLabels]
      rw [ih _ _ (Nat.mod_lt _ (by omega)), Nat.mod_add_mod]
      congr 1
      omega

theorem pass1_fst_not_mem (lines : List HackLine) :
    ∀ (m : String → Option Nat) (pl : Nat) (name : String),
      HackLine.Label name ∉ lines → (pass1 lines m pl).1 name = m name := by
  induction lines with
  | nil => intro m pl name _; rfl
  | cons l rest ih =>
    intro m pl name h
    have hrest : HackLine.Label name ∉ rest :=
      fun hm => h (List.mem_cons_of_mem _ hm)
    cases l with
    | Label l2 =>
      have hne : ¬(name = l2) := by
        intro hh
        exact h (by rw [hh]; exact List.mem_cons_self _ _)
      simp only [pass1]
      rw [ih _ _ _ hrest]
      simp [insertMap, hne]
    | AImmediate v => simp only [pass1]; exact ih _ _ _ hrest
    | ALocation n => simp only [pass1]; exact ih _ _ _ hrest
    | C c d j => simp only [pass1]; exact ih _ _ _ hrest

theorem pass1_fst_label (pre : List HackLine) :
    ∀ (post : List HackLine) (m : String → Option Nat) (pl : Nat)
      (name : String), pl < 65536 → HackLine.Label name ∉ post →
      (pass1 (pre ++ HackLine.Label name :: post) m pl).1 name
        = some ((pl + countNonLabels pre) % 65536) := by
  induction pre with
  | nil =>
    intro post m pl name hpl hpost
    simp only [List.nil_append, pass1]
    rw [pass1_fst_not_mem post _ pl name hpost]
    simp [insertMap, countNonLabels, Nat.mod_eq_of_lt hpl]
  | cons l pre ih =>
    intro post m pl name hpl hpost
    cases l with
    | Label l2 =>
      simp only [List.cons_append, pass1, countNonLabels]
      exact ih post _ pl name hpl hpost
    | AImmediate v =>
      simp only [List.cons_append, pass1, countNonLabels, List.append_eq]
      rw [ih post _ _ name (Nat.mod_lt _ (by omega)) hpost, Nat.mod_add_mod]
      congr 2
      omega
    | ALocation n =>
      simp only [List.cons_append, pass1, countNonLabels, List.append_eq]
      rw [ih post _ _ name (Nat.mod_lt _ (by omega)) hpost, Nat.mod_add_mod]
      congr 2
      omega
    | C c d j =>
      simp only [List.cons_append, pass1, countNonLabels, List.append_eq]
      rw [ih post _ _ name (Nat.mod_lt _ (by omega)) hpost, Nat.mod_add_mod]
      congr 2
      omega

theorem parseAll_error_of_mem (ls : List String) :
    ∀ (line e : String), line ∈ ls →
      HackLine.fromStr line = Except.error e →
      ∃ e2, parseAll ls = Except.error e2 := by
  induction ls with
  | nil => intro line e hmem _; cases hmem
  | cons l rest ih =>
    intro line e hmem herr
    rcases List.mem_cons.mp hmem with rfl | hmem2
    · exact ⟨e, by simp only [parseAll, herr]⟩
    · cases hf : HackLine.fromStr l with
      | error e3 => exact ⟨e3, by simp only [parseAll, hf]⟩
      | ok line2 =>
        obtain ⟨e2, hp⟩ := ih line e hmem2 herr
        exact ⟨e2, by simp only [parseAll, hf, hp]⟩

theorem variableEntry_address (st : SymbolTable) (name : String) :
    ((st.variableEntry name).2).variable_address
      = (st.variable_address + 1) % 65536 := by
  unfold SymbolTable.variableEntry
  cases st.vars name <;> rfl

theorem varRun_address (calls : List String) :
    ∀ st : SymbolTable, st.variable_address + calls.length ≤ 65535 →
      (varRun calls st).variable_address
        = st.variable_address + calls.length := by
  induction calls with
  | nil => intro st _; simp [varRun]
  | cons n rest ih =>
    intro st h
    have hlen : rest.length + 1 = (n :: rest).length := by simp
    have hstep : ((st.variableEntry n).2).variable_address
        = st.variable_address + 1 := by
      rw [variableEntry_address]
      exact Nat.mod_eq_of_lt (by simp at h; omega)
    simp only [varRun]
    rw [ih _ (by rw [hstep]; simp at h ⊢; omega), hstep]
    simp
    omega

/-- C1: the claimed allocation law (the Nth distinct new variable gets
address 16 + N - 1 regardless of re-references of known names) fails on
the code: SymbolTable::variable advances the allocator on every call,
also when the name is already known. On the three-line source with the
symbolic references a, a, b the second distinct name b receives address
18 (output line 0000000000010010) instead of the claimed 17
(0000000000010001), as this evaluation of the full assembler shows. -/
theorem variable_allocation_gap :
    assemble ["@a", "@a", "@b"]
      = Except.ok ["0000000000010000\n", "0000000000010000\n",
                   "0000000000010010\n"] := by
  rfl

/-- C2 counterexample: a whitespace-only line is neither filtered out by
the driver (the line is not empty, and its trimmed text does not start
with two slashes) nor ignored by the parser: its empty remainder is
parsed as a C-instruction whose empty computation mnemonic is a parse
error, so the whole run fails instead of producing nothing. -/
theorem whitespace_only_line_fails :
    assemble [" "] = Except.error "Invalid comp: " := by
  rfl

/-- C2 (amended): a line that is empty, or whose trimmed text starts
with two slashes, is dropped by the driver filter before parsing: it
contributes no output line, no parse error and no instruction-counter
change — removing it from the input leaves the result of the whole run
unchanged. (Whitespace-only nonempty lines, by contrast, reach the
parser and abort the run; see the counterexample.) -/
theorem ignored_lines_produce_nothing (pre post : List String) (line : String)
    (h : line = "" ∨ startsWithSlashSlash (trimChars line.data) = true) :
    assemble (pre ++ line :: post) = assemble (pre ++ post) := by
  have hk : keepLine line = false := by
    rcases h with h | h
    · subst h; rfl
    · simp [keepLine, h]
  have hf : (pre ++ line :: post).filter keepLine
      = (pre ++ post).filter keepLine := by
    simp [List.filter_append, List.filter_cons, hk]
  unfold assemble
  rw [hf]

/-- Witness for the amended C2 theorem at a concrete input. -/
theorem ignored_lines_produce_nothing_w :
    assemble ["@1", "", "@2"] = assemble ["@1", "@2"] :=
  ignored_lines_produce_nothing ["@1"] ["@2"] "" (Or.inl rfl)

/-- C3 counterexample: the at-line with operand 40000, a non-negative
integer outside [0, 32767], is not rejected: it parses as u16 and is
encoded into a 16-character binary output line. -/
theorem oversized_immediate_encoded :
    assemble ["@40000"] = Except.ok ["1001110001000000\n"] ∧
    32767 < 40000 ∧ "1001110001000000".length = 16 :=
  ⟨by rfl, by decide, by decide⟩

/-- C3 (amended): an AddressImmediate produced by the parser carries a
value in [0, 65535] — the full u16 range, not [0, 32767] — and is
always encoded as the 16 binary digits of that value plus a newline
with no range check against 32767; an at-line operand that fails u16
parsing (including integers of 65536 and above) becomes a symbolic
reference instead of an error. -/
theorem immediate_operand_range :
    (∀ (line : String) (v : Nat),
        HackLine.fromStr line = Except.ok (HackLine.AImmediate v) →
        v ≤ 65535) ∧
    (∀ (v : Nat) (st : SymbolTable),
        (HackLine.AImmediate v).assemble st
          = (some (String.mk (formatBinary 16 v) ++ "\n"), st)) ∧
    HackLine.fromStr "@70000" = Except.ok (HackLine.ALocation "70000") :=
  ⟨fromStr_AImmediate_le, fun _ _ => rfl, rfl⟩

/-- Witness for the amended C3 theorem at a concrete input. -/
theorem immediate_operand_range_w : 5 ≤ 65535 :=
  immediate_operand_range.1 "@5" 5 rfl

/-- C4 counterexample: a line that starts with an opening parenthesis
but does not end with a closing one is still classified as a Label (the
code checks only the start); and the inner text is not taken verbatim:
all leading opening and trailing closing parentheses are stripped. -/
theorem unclosed_label_still_label :
    HackLine.fromStr "(foo" = Except.ok (HackLine.Label "foo") ∧
    HackLine.fromStr "((A))" = Except.ok (HackLine.Label "A") :=
  ⟨rfl, rfl⟩

/-- C4 (amended): a line whose stripped text starts with an opening
parenthesis is always classified as a Label, whether or not it ends
with a closing parenthesis; its name is the stripped text with every
leading opening parenthesis and every trailing closing parenthesis
removed. -/
theorem label_branch_classification (s : String)
    (h : (trimChars (beforeComment s.data)).head? = some '(') :
    HackLine.fromStr s = Except.ok (HackLine.Label (String.mk
      (trimEndMatches ')'
        ((trimChars (beforeComment s.data)).dropWhile (fun c => c = '('))))) := by
  simp [HackLine.fromStr, h]

/-- Witness for the amended C4 theorem at a concrete input. -/
theorem label_branch_classification_w :
    HackLine.fromStr "(X)" = Except.ok (HackLine.Label "X") :=
  label_branch_classification "(X)" rfl

/-- C5: a C-instruction always emits the prefix 111, then the 7-bit
computation code (1 selector bit, which is 1 exactly for the M-operand
variants, followed by the 6 function bits), then the 3-bit destination
code (000 through 111 in enumeration order) and the 3-bit jump code
(000 through 111 in enumeration order), then a newline: 16 binary
characters plus the newline. The emitted string depends only on the
triple (the symbol table is returned unchanged and never read), so
identical triples always yield identical strings. -/
theorem c_instruction_encoding :
    (∀ (c : Computation) (d : Destination) (j : Jump) (st : SymbolTable),
        (HackLine.C c d j).assemble st
          = (some ("111" ++ c.assembleStr ++ d.assembleStr ++ j.assembleStr
                   ++ "\n"), st)) ∧
    (∀ (c : Computation) (d : Destination) (j : Jump),
        (("111" ++ c.assembleStr ++ d.assembleStr ++ j.assembleStr
          ++ "\n").length = 17) ∧
        (("111" ++ c.assembleStr ++ d.assembleStr ++ j.assembleStr
          ++ "\n").data.dropLast.all isBit = true) ∧
        (("111" ++ c.assembleStr ++ d.assembleStr ++ j.assembleStr
          ++ "\n").data.getLast? = some '\n')) ∧
    (Destination.assembleStr Destination.Null = "000" ∧
     Destination.assembleStr Destination.M = "001" ∧
     Destination.assembleStr Destination.D = "010" ∧
     Destination.assembleStr Destination.MD = "011" ∧
     Destination.assembleStr Destination.A = "100" ∧
     Destination.assembleStr Destination.AM = "101" ∧
     Destination.assembleStr Destination.AD = "110" ∧
     Destination.assembleStr Destination.AMD = "111") ∧
    (Jump.assembleStr Jump.Null = "000" ∧
     Jump.assembleStr Jump.JGT = "001" ∧
     Jump.assembleStr Jump.JEQ = "010" ∧
     Jump.assembleStr Jump.JGE = "011" ∧
     Jump.assembleStr Jump.JLT = "100" ∧
     Jump.assembleStr Jump.JNE = "101" ∧
     Jump.assembleStr Jump.JLE = "110" ∧
     Jump.assembleStr Jump.JMP = "111") ∧
    (∀ c : Computation,
        (c.assembleStr.data.head? = some (if usesM c then '1' else '0')) ∧
        c.assembleStr.length = 7 ∧
        c.funcBits.length = 6 ∧ c.funcBits.data.all isBit = true) :=
  ⟨fun _ _ _ _ => rfl, by decide, by decide, by decide, by decide⟩

/-- C6: the label map built by pass 1 assigns a declared label the
count of non-label instructions preceding its declaration (for the
declaration that wins in the map, i.e. the last one of that name), and
the pass-1 instruction counter is the count of non-label lines: label
lines never increment it. -/
theorem label_addresses (pre post : List HackLine) (name : String)
    (hpost : HackLine.Label name ∉ post)
    (hlen : countNonLabels pre < 65536) :
    (SymbolTable.new (pre ++ HackLine.Label name :: post)).labels name
      = some (countNonLabels pre) ∧
    ∀ lines : List HackLine,
      (pass1 lines predefinedLabels 0).2 = countNonLabels lines % 65536 := by
  constructor
  · have := pass1_fst_label pre post predefinedLabels 0 name (by omega) hpost
    simpa [SymbolTable.new, Nat.mod_eq_of_lt hlen] using this
  · intro lines
    simpa using pass1_snd lines predefinedLabels 0 (by omega)

/-- Witness for the C6 theorem at a concrete input. -/
theorem label_addresses_w :
    (SymbolTable.new [HackLine.AImmediate 0, HackLine.Label "LOOP"]).labels
        "LOOP" = some 1 ∧
    (pass1 [HackLine.AImmediate 0, HackLine.Label "LOOP"]
        predefinedLabels 0).2 = 1 :=
  ⟨(label_addresses [HackLine.AImmediate 0] [] "LOOP" (by simp) (by decide)).1,
   (label_addresses [HackLine.AImmediate 0] [] "LOOP" (by simp)
      (by decide)).2 [HackLine.AImmediate 0, HackLine.Label "LOOP"]⟩

/-- C7: if any kept line of the source fails to parse, the whole run
aborts with a parse error and no output is produced (the result is an
error value carrying no output lines, so well-formed lines preceding
the failing one contribute nothing); concretely, the two-line source
whose second line has two equal signs aborts with an error even though
its first line is well formed. -/
theorem parse_error_aborts :
    (∀ (input : List String) (line e : String),
        line ∈ input.filter keepLine →
        HackLine.fromStr line = Except.error e →
        ∃ e2, assemble input = Except.error e2) ∧
    assemble ["@1", "D==A"]
      = Except.error "more than one equal sign in instruction" := by
  constructor
  · intro input line e hmem herr
    obtain ⟨e2, hp⟩ := parseAll_error_of_mem _ line e hmem herr
    exact ⟨e2, by unfold assemble; rw [hp]⟩
  · rfl

/-- Witness for the C7 theorem at a concrete input. -/
theorem parse_error_aborts_w :
    ∃ e2, assemble ["D==A"] = Except.error e2 :=
  parse_error_aborts.1 ["D==A"] "D==A"
    "more than one equal sign in instruction" (by decide) rfl

/-- C8: resolving a symbolic reference is total and never an error: a
name present in the label map resolves to its label address with the
table unchanged; otherwise it is handed to the variable allocator,
which returns the previously allocated address when one exists and
otherwise allocates the next free address and records it; and the
label map is seeded with the 23 predefined symbols. -/
theorem symbolic_resolution_never_fails :
    (∀ (st : SymbolTable) (name : String) (a : Nat),
        st.label name = some a → resolveA st name = (a, st)) ∧
    (∀ (st : SymbolTable) (name : String),
        st.label name = none → resolveA st name = st.variableEntry name) ∧
    (∀ (st : SymbolTable) (name : String),
        st.label name = none → st.vars name = none →
        (resolveA st name).1 = st.variable_address ∧
        ((resolveA st name).2).vars name = some st.variable_address) ∧
    (∀ (st : SymbolTable) (name : String) (a : Nat),
        st.label name = none → st.vars name = some a →
        (resolveA st name).1 = a) ∧
    (∀ (st : SymbolTable) (name : String),
        (HackLine.ALocation name).assemble st
          = (some (String.mk (formatBinary 16 (resolveA st name).1) ++ "\n"),
             (resolveA st name).2)) ∧
    (∀ kv ∈ PREDEFINED_SYMBOLS, predefinedLabels kv.1 = some kv.2) := by
  refine ⟨?_, ?_, ?_, ?_, assemble_ALocation, by decide⟩
  · intro st name a h
    simp [resolveA, h]
  · intro st name h
    simp [resolveA, h]
  · intro st name h h2
    constructor
    · simp [resolveA, h, SymbolTable.variableEntry, h2]
    · simp [resolveA, h, SymbolTable.variableEntry, h2, insertMap]
  · intro st name a h h2
    simp [resolveA, h, SymbolTable.variableEntry, h2]

/-- Witness for the C8 theorem at a concrete input. -/
theorem symbolic_resolution_never_fails_w :
    resolveA (SymbolTable.new []) "SP" = (0, SymbolTable.new []) :=
  symbolic_resolution_never_fails.1 (SymbolTable.new []) "SP" 0 rfl

/-- C9: within one pass-2 run, every occurrence of the same symbolic
name resolves to the same address: any two addresses appearing in the
trace of emitted addresses for that name are equal, whatever the
starting table and the positions of the occurrences. -/
theorem same_name_same_address (p : List HackLine) (st : SymbolTable)
    (name : String) (a b : Nat) (ha : a ∈ addrTrace p st name)
    (hb : b ∈ addrTrace p st name) : a = b :=
  addrTrace_mem_eq p name st a b ha hb

/-- Witness for the C9 theorem at a concrete input. -/
theorem same_name_same_address_w :
    16 ∈ addrTrace [HackLine.ALocation "x", HackLine.ALocation "x"]
        (SymbolTable.new [HackLine.ALocation "x", HackLine.ALocation "x"])
        "x" ∧ (16 : Nat) = 16 :=
  ⟨by decide,
   same_name_same_address [HackLine.ALocation "x", HackLine.ALocation "x"]
     (SymbolTable.new [HackLine.ALocation "x", HackLine.ALocation "x"])
     "x" 16 16 (by decide) (by decide)⟩

/-- C10: every variable resolution advances the allocator by exactly
one (modulo the u16 width), also when the name is already known and
its existing address is returned; hence after k resolutions from a
fresh table the allocator reads 16 + k (while that fits in a u16), and
the addresses of distinct names need not be contiguous: after the
resolution sequence a, a, b the name a holds 16 and b holds 18. -/
theorem variable_counter_always_increments :
    (∀ (st : SymbolTable) (name : String),
        ((st.variableEntry name).2).variable_address
          = (st.variable_address + 1) % 65536) ∧
    (∀ (calls : List String) (lines : List HackLine),
        16 + calls.length ≤ 65535 →
        (varRun calls (SymbolTable.new lines)).variable_address
          = 16 + calls.length) ∧
    ((varRun ["a", "a", "b"] (SymbolTable.new [])).vars "a" = some 16 ∧
     (varRun ["a", "a", "b"] (SymbolTable.new [])).vars "b" = some 18) := by
  refine ⟨variableEntry_address, ?_, by decide, by decide⟩
  intro calls lines h
  exact varRun_address calls (SymbolTable.new lines) h

/-- Witness for the C10 theorem at a concrete input. -/
theorem variable_counter_always_increments_w :
    (varRun ["x"] (SymbolTable.new [])).variable_address = 17 :=
  variable_counter_always_increments.2.1 ["x"] [] (by decide)

end Hack
